import Mathlib

/-!
Verification development for the `iuliia-rust` transliteration library
(`src/lib.rs`).  Rust `String`s are embedded as `List Char` (written `Str`
below): Rust's `.chars()` decomposition, slicing and concatenation become
list operations.  Rust `HashMap<String, String>` tables are embedded as
association lists with first-match lookup (hash maps have unique keys, so
`List.find?` models `get`).  Rust's Unicode case functions
(`char::is_uppercase`, `str::to_lowercase`, `str::to_uppercase`) are
embedded by Lean's `Char.isUpper`, `Char.toLower`, `Char.toUpper`, which
realise them on the basic-latin fragment.  A Rust panic is embedded as
`Except.error`.
-/

/-- A Rust `String`, embedded as its sequence of characters. -/
abbrev Str := List Char

/-- Embedding of `const DUMMY_SYMBOL: &str = "$"` (a one-character string,
kept as the character `'$'`). -/
def DUMMY_SYMBOL : Char := '$'

/-- Embedding of `HashMap::get` on an association-list table: the value of
the first entry whose key equals the query, if any. -/
def tableGet (m : List (Str × Str)) (k : Str) : Option Str :=
  match m.find? (fun p => p.1 == k) with
  | some p => some p.2
  | none => none

/-- Embedding of `s.replace(DUMMY_SYMBOL, "")`: remove every occurrence of
the boundary marker. -/
def stripDummy (s : Str) : Str :=
  s.filter (fun c => c != DUMMY_SYMBOL)

/-- Embedding of `str::to_lowercase`. -/
def toLowerStr (s : Str) : Str :=
  s.map Char.toLower

/-- Embedding of `str::to_uppercase`. -/
def toUpperStr (s : Str) : Str :=
  s.map Char.toUpper

/-- Embedding of `struct Schema` from `src/lib.rs`.  The four rule tables
and the samples are optional, exactly as in the source. -/
structure Schema where
  name : Str
  description : Str
  url : Str
  mapping : Option (List (Str × Str))
  prev_mapping : Option (List (Str × Str))
  next_mapping : Option (List (Str × Str))
  ending_mapping : Option (List (Str × Str))
  samples : Option (List (List Str))

/-- Embedding of `Schema::get_pref`: `None` when `prev_mapping` is absent,
otherwise look up the query with the boundary marker removed and then
lowercased. -/
def Schema.get_pref (schema : Schema) (s : Str) : Option Str :=
  match schema.prev_mapping with
  | none => none
  | some m => tableGet m (toLowerStr (stripDummy s))

/-- Embedding of `Schema::get_next`: `None` when `next_mapping` is absent,
otherwise look up the query with the boundary marker removed and then
lowercased. -/
def Schema.get_next (schema : Schema) (s : Str) : Option Str :=
  match schema.next_mapping with
  | none => none
  | some m => tableGet m (toLowerStr (stripDummy s))

/-- Embedding of `Schema::get_letter`: `None` when `mapping` is absent,
otherwise look up the lowercased query (no marker stripping). -/
def Schema.get_letter (schema : Schema) (s : Str) : Option Str :=
  match schema.mapping with
  | none => none
  | some m => tableGet m (toLowerStr s)

/-- Embedding of `Schema::get_ending`: `None` when `ending_mapping` is
absent, otherwise look up the lowercased query (no marker stripping). -/
def Schema.get_ending (schema : Schema) (s : Str) : Option Str :=
  match schema.ending_mapping with
  | none => none
  | some m => tableGet m (toLowerStr s)

/-- Embedding of `propagate_case_from_source`: detect whether any source
character is uppercase; if not, return the replacement unchanged; if so,
uppercase only the first character (`only_first_symbol`) or the whole
replacement. -/
def propagate_case_from_source (result : Str) (source_letter : Str)
    (only_first_symbol : Bool) : Str :=
  let letter_upper := source_letter.any (fun letter => letter.isUpper)
  if !letter_upper then
    result
  else if only_first_symbol then
    match result with
    | [] => []
    | f :: rest => f.toUpper :: rest
  else
    toUpperStr result

/-- Embedding of `struct Ending`. -/
structure Ending where
  translate : Str
  ending_start : Nat
  deriving DecidableEq

/-- Embedding of `parse_ending`: no ending for segments shorter than 3
characters; otherwise try the last 1 character in the ending table first,
then the last 2 characters; case is propagated in whole-string mode from
the matched source tail. -/
def parse_ending (s : Str) (schema : Schema) : Option Ending :=
  let length := s.length
  if length < 3 then
    none
  else
    match schema.get_ending (s.drop (length - 1)) with
    | some matched =>
      some { translate := propagate_case_from_source matched (s.drop (length - 1)) false,
             ending_start := length - 1 }
    | none =>
      match schema.get_ending (s.drop (length - 2)) with
      | some matched =>
        some { translate := propagate_case_from_source matched (s.drop (length - 2)) false,
               ending_start := length - 2 }
      | none => none

/-- Embedding of `parse_letter` on one 3-character window.  The window is
a slice of length 3, as delivered by `windows(3)`: the keys are
`[..2].concat`, `[1..].concat` and `[1..2].concat`; the letter result is
overridden by the letter match, then the postfix match, then the prefix
match, and first-symbol case propagation is applied at the end. -/
def parse_letter (letter_with_neighbors : Str) (schema : Schema) : Str :=
  let prefKey : Str := letter_with_neighbors.take 2
  let postKey : Str := letter_with_neighbors.drop 1
  let letter : Str := (letter_with_neighbors.drop 1).take 1
  let result := letter
  let result := match schema.get_letter letter with
    | some matched => matched
    | none => result
  let result := match schema.get_next postKey with
    | some matched => matched
    | none => result
  let result := match schema.get_pref prefKey with
    | some matched => matched
    | none => result
  propagate_case_from_source result letter true

/-- Embedding of `Vec::windows(3)`: all contiguous length-3 slices, in
order; empty when the vector has fewer than 3 elements. -/
def windows3 (l : Str) : List Str :=
  match l with
  | a :: b :: c :: rest => [a, b, c] :: windows3 (b :: c :: rest)
  | _ => []

/-- Embedding of `parse_word_by_schema`: peel a matched ending, pad the
remaining body with one boundary marker on each side, transliterate each
3-character window, and append the transliterated ending. -/
def parse_word_by_schema (s : Str) (schema : Schema) : Str :=
  let word_by_letters : Str := s
  let ending := parse_ending word_by_letters schema
  let parsed_end : Str := match ending with
    | some matched => matched.translate
    | none => []
  let word_without_ending : Str := match ending with
    | some matched => word_by_letters.take matched.ending_start
    | none => word_by_letters
  let word_for_parse : Str := DUMMY_SYMBOL :: word_without_ending ++ [DUMMY_SYMBOL]
  let parsed_word : Str :=
    ((windows3 word_for_parse).map (fun letter_with_neighbors =>
      parse_letter letter_with_neighbors schema)).flatten
  parsed_word ++ parsed_end

/-- Embedding of the word-character class of the boundary regex `\b`
(the class `\w`), realised on the basic-latin fragment: letters, digits
and underscore. -/
def isWordChar (c : Char) : Bool :=
  c.isAlphanum || c == '_'

/-- Whether position `j` of the text holds a word character (positions
outside the text count as non-word). -/
def wordAt (l : Str) (j : Nat) : Bool :=
  match l.get? j with
  | some c => isWordChar c
  | none => false

/-- Embedding of a match position of the boundary regex `\b`: the
word-character class changes across position `i` (the outside of the text
counting as non-word). -/
def isBoundary (l : Str) (i : Nat) : Bool :=
  if i = 0 then wordAt l 0
  else wordAt l (i - 1) != wordAt l i

/-- All match positions of `\b` in the text, in increasing order. -/
def boundaries (l : Str) : List Nat :=
  (List.range (l.length + 1)).filter (fun i => isBoundary l i)

/-- The pieces of `Regex::split`: the text between consecutive match
positions, including the piece before the first match and the piece after
the last. -/
def piecesFrom (l : Str) (start : Nat) (cuts : List Nat) : List Str :=
  match cuts with
  | [] => [l.drop start]
  | p :: rest => (l.take p).drop start :: piecesFrom l p rest

/-- Embedding of `RE.split(s)` for the cached boundary regex `\b`. -/
def splitWords (l : Str) : List Str :=
  piecesFrom l 0 (boundaries l)

/-- Embedding of `parse_by_schema`: split the input at word boundaries,
transliterate every segment, and concatenate the results in order. -/
def parse_by_schema (s : Str) (schema : Schema) : Str :=
  ((splitWords s).map (fun word => parse_word_by_schema word schema)).flatten

/-- Embedding of `Schema::for_name`.  The embedded schema directory
(`SCHEMA_DIR`, an `include_dir` of JSON files) is modelled as an
association list from file name to already-parsed `Schema`; JSON parsing
itself is an external collaborator per the specification.  The Rust panic
(`expect` on a missing file) is embedded as `Except.error` carrying the
panic message. -/
def for_name (schemaDir : List (Str × Schema)) (s : Str) : Except Str Schema :=
  match schemaDir.find? (fun p => p.1 == s ++ (".json".toList)) with
  | none => Except.error (("There are no schema with name ".toList) ++ s)
  | some p => Except.ok p.2

/-- The segment body left over after ending extraction in
`parse_word_by_schema` (the whole segment when no ending matched). -/
def wordBody (s : Str) (schema : Schema) : Str :=
  match parse_ending s schema with
  | some matched => s.take matched.ending_start
  | none => s

/-- The transliterated ending appended by `parse_word_by_schema` (empty
when no ending matched). -/
def wordEnd (s : Str) (schema : Schema) : Str :=
  match parse_ending s schema with
  | some matched => matched.translate
  | none => []

/-- A schema whose letter `a` has entries in all three window tables at
once, to exercise the rule priority. -/
def prioritySchema : Schema :=
  { name := ['t'], description := [], url := [],
    mapping := some [(['a'], ['L'])],
    prev_mapping := some [(['e', 'a'], ['P'])],
    next_mapping := some [(['a', 'f'], ['N'])],
    ending_mapping := none,
    samples := none }

/-- A schema with a 1-character and a 2-character ending rule that can
match the same tail. -/
def endSchema : Schema :=
  { name := ['t'], description := [], url := [],
    mapping := none,
    prev_mapping := some [(['a'], ['y'])],
    next_mapping := none,
    ending_mapping := some [(['c'], ['1']), (['b', 'c'], ['2'])],
    samples := none }

/-- A schema showing which lookups strip the boundary marker: the letter
and ending tables hold the bare key `a`, the prefix table holds `a` as
well. -/
def markerSchema : Schema :=
  { name := ['t'], description := [], url := [],
    mapping := some [(['a'], ['x'])],
    prev_mapping := some [(['a'], ['z'])],
    next_mapping := none,
    ending_mapping := some [(['a'], ['y'])],
    samples := none }

/-- A schema whose context tables hold only genuine 2-character keys and
whose letter table maps the literal marker character. -/
def dollarSchema : Schema :=
  { name := ['t'], description := [], url := [],
    mapping := some [([DUMMY_SYMBOL], ['Z'])],
    prev_mapping := some [(['a', 'b'], ['P'])],
    next_mapping := some [(['c', 'd'], ['N'])],
    ending_mapping := none,
    samples := none }

example : windows3 ['a', 'b', 'c', 'd'] = [['a', 'b', 'c'], ['b', 'c', 'd']] := by decide

example : splitWords "ab, cd".toList =
    [[], ['a', 'b'], [',', ' '], ['c', 'd'], []] := by decide

example : parse_letter ['e', 'a', 'f'] prioritySchema = ['P'] := by decide

example : parse_ending ['a', 'b', 'c'] endSchema =
    some { translate := ['1'], ending_start := 2 } := by decide

example : parse_word_by_schema ['a', 'b', 'c'] endSchema = ['y', 'b', '1'] := by decide

example : parse_by_schema "Abc cba".toList endSchema =
    "Yb1 cba".toList := by decide

/-- C1: for every 3-character window `(prev, cur, next)` the replacement
of `cur` follows the priority prefix override > postfix override >
single-letter mapping > identity: `parse_letter` equals first-symbol case
propagation applied to the prefix match when there is one, else the
postfix match, else the letter match, else `cur` itself; in particular on
`prioritySchema`, whose letter `a` has entries in all three tables, the
prefix rule's replacement is chosen. -/
theorem parse_letter_priority_order (p c n : Char) (schema : Schema) :
    (∀ m, schema.get_pref [p, c] = some m →
      parse_letter [p, c, n] schema = propagate_case_from_source m [c] true) ∧
    (schema.get_pref [p, c] = none → ∀ m, schema.get_next [c, n] = some m →
      parse_letter [p, c, n] schema = propagate_case_from_source m [c] true) ∧
    (schema.get_pref [p, c] = none → schema.get_next [c, n] = none →
      ∀ m, schema.get_letter [c] = some m →
      parse_letter [p, c, n] schema = propagate_case_from_source m [c] true) ∧
    (schema.get_pref [p, c] = none → schema.get_next [c, n] = none →
      schema.get_letter [c] = none →
      parse_letter [p, c, n] schema = propagate_case_from_source [c] [c] true) := by
  refine ⟨fun m hp => ?_, fun hp m hn => ?_, fun hp hn m hl => ?_, fun hp hn hl => ?_⟩ <;>
    · unfold parse_letter
      simp [hp, *]

/-- C1 witness: on `prioritySchema`, whose letter `a` has entries in
`mapping`, `next_mapping` and `prev_mapping` simultaneously, the window
`(e, a, f)` gets the prefix rule's replacement. -/
theorem parse_letter_priority_order_witness :
    parse_letter ['e', 'a', 'f'] prioritySchema = ['P'] := by
  have h := (parse_letter_priority_order 'e' 'a' 'f' prioritySchema).1 ['P'] (by decide)
  simpa using h

/-- C2: ending matching happens only on segments of at least 3
characters; the last 1 character is tried in the ending table before the
last 2 characters, so when both could match, the 1-character rule wins;
the chosen `ending_start` is everything-before-the-tail in each case. -/
theorem parse_ending_order (s : Str) (schema : Schema) :
    (s.length < 3 → parse_ending s schema = none) ∧
    (3 ≤ s.length → ∀ m, schema.get_ending (s.drop (s.length - 1)) = some m →
      parse_ending s schema =
        some { translate := propagate_case_from_source m (s.drop (s.length - 1)) false,
               ending_start := s.length - 1 }) ∧
    (3 ≤ s.length → schema.get_ending (s.drop (s.length - 1)) = none →
      ∀ m, schema.get_ending (s.drop (s.length - 2)) = some m →
      parse_ending s schema =
        some { translate := propagate_case_from_source m (s.drop (s.length - 2)) false,
               ending_start := s.length - 2 }) ∧
    (3 ≤ s.length → schema.get_ending (s.drop (s.length - 1)) = none →
      schema.get_ending (s.drop (s.length - 2)) = none →
      parse_ending s schema = none) := by
  refine ⟨fun h => ?_, fun h m hm => ?_, fun h h1 m hm => ?_, fun h h1 h2 => ?_⟩
  · simp [parse_ending, h]
  · simp [parse_ending, Nat.not_lt.mpr h, hm]
  · simp [parse_ending, Nat.not_lt.mpr h, h1, hm]
  · simp [parse_ending, Nat.not_lt.mpr h, h1, h2]

/-- C2 witness: on the segment `abc` and a schema whose ending table
holds both `c` and `bc`, the 1-character rule is chosen. -/
theorem parse_ending_order_witness :
    parse_ending ['a', 'b', 'c'] endSchema =
      some { translate := ['1'], ending_start := 2 } := by
  have h := (parse_ending_order ['a', 'b', 'c'] endSchema).2.1 (by decide) ['1'] (by decide)
  simpa using h

/-- C4: in first-symbol-only case-propagation mode, an uppercase source
character uppercases exactly the first character of the replacement and
leaves the rest unchanged, and a non-uppercase source character leaves
the replacement unmodified. -/
theorem propagate_case_first_symbol (result : Str) (c : Char) :
    (c.isUpper = false → propagate_case_from_source result [c] true = result) ∧
    (c.isUpper = true →
      propagate_case_from_source result [c] true =
        match result with
        | [] => []
        | f :: rest => f.toUpper :: rest) := by
  constructor
  · intro h
    simp [propagate_case_from_source, h]
  · intro h
    cases result <;> simp [propagate_case_from_source, h]

/-- C4 witness: uppercase source `A` over replacement `xyz` uppercases
only the first character; lowercase source `a` leaves it unchanged. -/
theorem propagate_case_first_symbol_witness :
    propagate_case_from_source ['x', 'y', 'z'] ['A'] true = ['X', 'y', 'z'] ∧
    propagate_case_from_source ['x', 'y', 'z'] ['a'] true = ['x', 'y', 'z'] := by
  constructor
  · have h := (propagate_case_first_symbol ['x', 'y', 'z'] 'A').2 (by decide)
    simpa using h
  · exact (propagate_case_first_symbol ['x', 'y', 'z'] 'a').1 (by decide)

/-- C5: in whole case-propagation mode, the replacement is uppercased as
a whole exactly when some character of the matched source tail is
uppercase, and returned unmodified otherwise. -/
theorem propagate_case_whole (result source : Str) :
    (source.any (fun letter => letter.isUpper) = true →
      propagate_case_from_source result source false = toUpperStr result) ∧
    (source.any (fun letter => letter.isUpper) = false →
      propagate_case_from_source result source false = result) := by
  constructor
  · intro h
    simp [propagate_case_from_source, h]
  · intro h
    simp [propagate_case_from_source, h]

/-- Code points below the surrogate range round-trip through
`Char.ofNat`. -/
theorem toNat_ofNat_of_lt (m : Nat) (h : m < 55296) : (Char.ofNat m).toNat = m := by
  have hv : m.isValidChar := Or.inl h
  rw [Char.ofNat, dif_pos hv]
  rfl

/-- `Char.toLower` is idempotent. -/
theorem toLower_toLower (c : Char) : c.toLower.toLower = c.toLower := by
  simp only [Char.toLower]
  by_cases h : c.toNat ≥ 65 ∧ c.toNat ≤ 90
  · have hm : (Char.ofNat (c.toNat + 32)).toNat = c.toNat + 32 :=
      toNat_ofNat_of_lt _ (by omega)
    have hcond : ¬((Char.ofNat (c.toNat + 32)).toNat ≥ 65 ∧
        (Char.ofNat (c.toNat + 32)).toNat ≤ 90) := by
      rw [hm]
      omega
    rw [if_pos h, if_neg hcond]
  · rw [if_neg h, if_neg h]

/-- `Char.toLower` maps only `'$'` to `'$'`. -/
theorem toLower_eq_dollar_iff (c : Char) : c.toLower = '$' ↔ c = '$' := by
  constructor
  · intro h
    by_cases hc : c.toNat ≥ 65 ∧ c.toNat ≤ 90
    · exfalso
      have h1 : c.toLower = Char.ofNat (c.toNat + 32) := by
        simp only [Char.toLower]
        rw [if_pos hc]
      have h2 : (Char.ofNat (c.toNat + 32)).toNat = c.toNat + 32 :=
        toNat_ofNat_of_lt _ (by omega)
      have h36 : ('$' : Char).toNat = 36 := by decide
      have h3 := congrArg Char.toNat (h1.symm.trans h)
      rw [h2, h36] at h3
      omega
    · have h1 : c.toLower = c := by
        simp only [Char.toLower]
        rw [if_neg hc]
      exact h1.symm.trans h
  · intro h
    subst h
    decide

/-- Lowercasing a character string twice is the same as doing it once. -/
theorem toLowerStr_idem (s : Str) : toLowerStr (toLowerStr s) = toLowerStr s := by
  induction s with
  | nil => rfl
  | cons c cs ih =>
    simp only [toLowerStr, List.map_cons] at ih ⊢
    rw [toLower_toLower]
    exact congrArg _ ih

/-- Removing the boundary marker twice is the same as doing it once. -/
theorem stripDummy_idem (s : Str) : stripDummy (stripDummy s) = stripDummy s := by
  induction s with
  | nil => rfl
  | cons c cs ih =>
    by_cases h : c = DUMMY_SYMBOL <;> simp_all [stripDummy]

/-- Removing the boundary marker commutes with lowercasing. -/
theorem stripDummy_toLowerStr (s : Str) :
    stripDummy (toLowerStr s) = toLowerStr (stripDummy s) := by
  induction s with
  | nil => rfl
  | cons c cs ih =>
    by_cases h : c = DUMMY_SYMBOL
    · subst h
      have hl : (DUMMY_SYMBOL : Char).toLower = DUMMY_SYMBOL := by decide
      simp [stripDummy, toLowerStr, hl] at ih ⊢
      exact ih
    · have h2 : ¬(c.toLower = DUMMY_SYMBOL) := fun hh =>
        h ((toLower_eq_dollar_iff c).mp hh)
      simp [stripDummy, toLowerStr, h, h2] at ih ⊢
      exact ih

/-- C6: every schema lookup gives the same result on a query as on its
lowercased form; the prefix and postfix lookups also give the same result
when the boundary marker is removed from the query; and on
`markerSchema` the letter and ending lookups do not strip the marker
(the key `$a` misses the stored key `a`) while the prefix lookup does. -/
theorem lookup_query_normalization (schema : Schema) (s : Str) :
    (schema.get_letter (toLowerStr s) = schema.get_letter s) ∧
    (schema.get_pref (toLowerStr s) = schema.get_pref s) ∧
    (schema.get_next (toLowerStr s) = schema.get_next s) ∧
    (schema.get_ending (toLowerStr s) = schema.get_ending s) ∧
    (schema.get_pref (stripDummy s) = schema.get_pref s) ∧
    (schema.get_next (stripDummy s) = schema.get_next s) ∧
    (markerSchema.get_letter ['$', 'a'] = none ∧
     markerSchema.get_letter ['a'] = some ['x'] ∧
     markerSchema.get_ending ['$', 'a'] = none ∧
     markerSchema.get_ending ['a'] = some ['y'] ∧
     markerSchema.get_pref ['$', 'a'] = some ['z']) := by
  refine ⟨?_, ?_, ?_, ?_, ?_, ?_, by decide⟩
  · unfold Schema.get_letter
    cases schema.mapping <;> simp [toLowerStr_idem]
  · unfold Schema.get_pref
    cases schema.prev_mapping <;>
      simp [stripDummy_toLowerStr, toLowerStr_idem]
  · unfold Schema.get_next
    cases schema.next_mapping <;>
      simp [stripDummy_toLowerStr, toLowerStr_idem]
  · unfold Schema.get_ending
    cases schema.ending_mapping <;> simp [toLowerStr_idem]
  · unfold Schema.get_pref
    cases schema.prev_mapping <;> simp [stripDummy_idem]
  · unfold Schema.get_next
    cases schema.next_mapping <;> simp [stripDummy_idem]

/-- Two schemas with the same lookup behaviour transliterate windows
identically. -/
theorem parse_letter_ext (a b : Schema)
    (h1 : ∀ q, a.get_letter q = b.get_letter q)
    (h2 : ∀ q, a.get_pref q = b.get_pref q)
    (h3 : ∀ q, a.get_next q = b.get_next q)
    (w : Str) : parse_letter w a = parse_letter w b := by
  unfold parse_letter
  simp only [h1, h2, h3]

/-- Two schemas with the same ending lookup behaviour extract the same
ending. -/
theorem parse_ending_ext (a b : Schema)
    (h4 : ∀ q, a.get_ending q = b.get_ending q)
    (s : Str) : parse_ending s a = parse_ending s b := by
  unfold parse_ending
  simp only [h4]

/-- Two schemas with the same lookup behaviour transliterate words
identically. -/
theorem parse_word_by_schema_ext (a b : Schema)
    (h1 : ∀ q, a.get_letter q = b.get_letter q)
    (h2 : ∀ q, a.get_pref q = b.get_pref q)
    (h3 : ∀ q, a.get_next q = b.get_next q)
    (h4 : ∀ q, a.get_ending q = b.get_ending q)
    (s : Str) : parse_word_by_schema s a = parse_word_by_schema s b := by
  unfold parse_word_by_schema
  simp only [parse_ending_ext a b h4, parse_letter_ext a b h1 h2 h3]

/-- Two schemas with the same lookup behaviour transliterate any text
identically. -/
theorem parse_by_schema_ext (a b : Schema)
    (h1 : ∀ q, a.get_letter q = b.get_letter q)
    (h2 : ∀ q, a.get_pref q = b.get_pref q)
    (h3 : ∀ q, a.get_next q = b.get_next q)
    (h4 : ∀ q, a.get_ending q = b.get_ending q)
    (s : Str) : parse_by_schema s a = parse_by_schema s b := by
  unfold parse_by_schema
  simp only [parse_word_by_schema_ext a b h1 h2 h3 h4]

/-- C7: a schema with an absent optional rule table answers every lookup
of that category with `none` (never an error), and transliteration with
the absent table equals transliteration with the table present but
empty, so the algorithm falls through to lower-priority rules or
identity exactly as if no key matched. -/
theorem absent_table_no_match (schema : Schema) (s q : Str) :
    (({ schema with mapping := none } : Schema).get_letter q = none) ∧
    (({ schema with prev_mapping := none } : Schema).get_pref q = none) ∧
    (({ schema with next_mapping := none } : Schema).get_next q = none) ∧
    (({ schema with ending_mapping := none } : Schema).get_ending q = none) ∧
    parse_by_schema s { schema with mapping := none } =
      parse_by_schema s { schema with mapping := some [] } ∧
    parse_by_schema s { schema with prev_mapping := none } =
      parse_by_schema s { schema with prev_mapping := some [] } ∧
    parse_by_schema s { schema with next_mapping := none } =
      parse_by_schema s { schema with next_mapping := some [] } ∧
    parse_by_schema s { schema with ending_mapping := none } =
      parse_by_schema s { schema with ending_mapping := some [] } := by
  refine ⟨rfl, rfl, rfl, rfl, ?_, ?_, ?_, ?_⟩ <;>
    exact parse_by_schema_ext _ _ (fun q => rfl) (fun q => rfl) (fun q => rfl)
      (fun q => rfl) s

/-- A window count: `windows(3)` yields two fewer slices than the vector
has elements (and none below 3 elements). -/
theorem windows3_length : ∀ (l : Str), (windows3 l).length = l.length - 2
  | [] => rfl
  | [_] => rfl
  | [_, _] => rfl
  | a :: b :: c :: rest => by
    have ih := windows3_length (b :: c :: rest)
    simp only [windows3, List.length_cons] at ih ⊢
    omega

/-- Splitting pieces between sorted in-range cut positions loses no
characters. -/
theorem flatten_piecesFrom (l : Str) :
    ∀ (cuts : List Nat) (start : Nat),
      (∀ p ∈ cuts, start ≤ p ∧ p ≤ l.length) → cuts.Pairwise (· ≤ ·) →
      (piecesFrom l start cuts).flatten = l.drop start := by
  intro cuts
  induction cuts with
  | nil =>
    intro start _ _
    simp [piecesFrom]
  | cons p rest ih =>
    intro start h hp
    have hsp : start ≤ p := (h p (List.mem_cons_self p rest)).1
    have hpl : p ≤ l.length := (h p (List.mem_cons_self p rest)).2
    have hrest : ∀ q ∈ rest, p ≤ q ∧ q ≤ l.length := by
      intro q hq
      exact ⟨(List.pairwise_cons.mp hp).1 q hq, (h q (List.mem_cons_of_mem p hq)).2⟩
    have hrec := ih p hrest (List.pairwise_cons.mp hp).2
    simp only [piecesFrom, List.flatten_cons, hrec]
    have hdecomp : l.drop start = (l.take p).drop start ++ l.drop p := by
      conv_lhs => rw [← List.take_append_drop p l]
      rw [List.drop_append_eq_append_drop]
      have hlen : (l.take p).length = p := by
        rw [List.length_take]
        omega
      rw [hlen]
      have hz : start - p = 0 := by omega
      rw [hz, List.drop_zero]
    exact hdecomp.symm

/-- Every boundary position lies within the text. -/
theorem boundaries_mem (l : Str) : ∀ p ∈ boundaries l, 0 ≤ p ∧ p ≤ l.length := by
  intro p hp
  unfold boundaries at hp
  have hm := List.mem_filter.mp hp
  have hr := List.mem_range.mp hm.1
  omega

/-- Boundary positions come in increasing order. -/
theorem boundaries_pairwise (l : Str) : (boundaries l).Pairwise (· ≤ ·) := by
  unfold boundaries
  exact (List.Pairwise.filter _ (List.pairwise_lt_range _)).imp Nat.le_of_lt

/-- The boundary segmenter loses no characters: the segments of a text
concatenate back to the text. -/
theorem flatten_splitWords (l : Str) : (splitWords l).flatten = l := by
  unfold splitWords
  rw [flatten_piecesFrom l (boundaries l) 0 (boundaries_mem l) (boundaries_pairwise l)]
  exact List.drop_zero l

/-- C3: the window transliterator pads the segment body (what remains
after ending extraction) with exactly one boundary marker on each side
and produces exactly one output unit per body character; the segment's
output is the concatenation of those replacements followed by the
transliterated ending; and the final result is the concatenation of the
segment outputs in original order. -/
theorem window_count_and_assembly (s : Str) (schema : Schema) :
    (∀ body : Str,
      (windows3 (DUMMY_SYMBOL :: body ++ [DUMMY_SYMBOL])).length = body.length) ∧
    parse_word_by_schema s schema =
      ((windows3 (DUMMY_SYMBOL :: wordBody s schema ++ [DUMMY_SYMBOL])).map
        (fun w => parse_letter w schema)).flatten ++ wordEnd s schema ∧
    ((windows3 (DUMMY_SYMBOL :: wordBody s schema ++ [DUMMY_SYMBOL])).map
        (fun w => parse_letter w schema)).length = (wordBody s schema).length ∧
    parse_by_schema s schema =
      ((splitWords s).map (fun w => parse_word_by_schema w schema)).flatten := by
  refine ⟨?_, ?_, ?_, rfl⟩
  · intro body
    rw [windows3_length]
    simp
  · unfold parse_word_by_schema wordBody wordEnd
    cases h : parse_ending s schema <;> simp [h]
  · rw [List.length_map, windows3_length]
    simp

/-- C8: transliteration is total and structure preserving: the segments
concatenate back to the input, the output is the concatenation of one
output per segment in order, and any matched ending starts at a
position strictly inside a segment of length at least 3 (so the
tail-slicing indices of the source stay in bounds). -/
theorem transliteration_total_structure (s : Str) (schema : Schema) :
    (splitWords s).flatten = s ∧
    parse_by_schema s schema =
      ((splitWords s).map (fun w => parse_word_by_schema w schema)).flatten ∧
    ((splitWords s).map (fun w => parse_word_by_schema w schema)).length =
      (splitWords s).length ∧
    (match parse_ending s schema with
     | some e => 3 ≤ s.length ∧ e.ending_start < s.length
     | none => True) := by
  refine ⟨flatten_splitWords s, rfl, List.length_map _ _, ?_⟩
  cases h : parse_ending s schema with
  | none => trivial
  | some e =>
    by_cases hl : s.length < 3
    · simp [parse_ending, hl] at h
    · simp only [parse_ending] at h
      rw [if_neg hl] at h
      cases hg1 : schema.get_ending (s.drop (s.length - 1)) with
      | some m =>
        rw [hg1] at h
        cases h
        constructor
        · omega
        · simp only []
          omega
      | none =>
        rw [hg1] at h
        cases hg2 : schema.get_ending (s.drop (s.length - 2)) with
        | some m =>
          rw [hg2] at h
          cases h
          constructor
          · omega
          · simp only []
            omega
        | none =>
          rw [hg2] at h
          cases h

/-- C8 witness: on the segment `abc` and `endSchema` the matched ending
starts strictly inside the 3-character segment. -/
theorem transliteration_total_structure_witness :
    3 ≤ (['a', 'b', 'c'] : Str).length ∧ 2 < (['a', 'b', 'c'] : Str).length := by
  have h := (transliteration_total_structure ['a', 'b', 'c'] endSchema).2.2.2
  rw [(by decide : parse_ending ['a', 'b', 'c'] endSchema =
    some { translate := ['1'], ending_start := 2 })] at h
  exact h

/-- C9: resolving a schema name that is not in the repository is an
explicit unrecoverable failure (the Rust `expect` panic, embedded as
`Except.error`), and a successful resolution always returns a schema
actually stored under that name — never a silently substituted
default. -/
theorem unknown_schema_name_fatal (dir : List (Str × Schema)) (s : Str) :
    (dir.find? (fun p => p.1 == s ++ (".json".toList)) = none →
      for_name dir s =
        Except.error (("There are no schema with name ".toList) ++ s)) ∧
    (∀ sch, for_name dir s = Except.ok sch →
      ∃ p, p ∈ dir ∧ p.1 = s ++ (".json".toList) ∧ p.2 = sch) := by
  constructor
  · intro h
    unfold for_name
    rw [h]
  · intro sch h
    unfold for_name at h
    cases hf : dir.find? (fun p => p.1 == s ++ (".json".toList)) with
    | none =>
      rw [hf] at h
      cases h
    | some p =>
      rw [hf] at h
      cases h
      refine ⟨p, List.mem_of_find?_eq_some hf, ?_, rfl⟩
      have hbeq := List.find?_some hf
      have hbeq2 : (p.1 == s ++ (".json".toList)) = true := hbeq
      exact eq_of_beq hbeq2

/-- C9 witness: the empty repository resolves no name; the lookup of `x`
fails with the panic message. -/
theorem unknown_schema_name_fatal_witness :
    for_name [] ['x'] =
      Except.error (("There are no schema with name ".toList) ++ ['x']) :=
  (unknown_schema_name_fatal [] ['x']).1 rfl

/-- A lookup whose query length differs from every stored key's length
finds nothing. -/
theorem tableGet_eq_none_of_length_ne (m : List (Str × Str)) (q : Str)
    (h : ∀ kv ∈ m, kv.1.length ≠ q.length) : tableGet m q = none := by
  have hnone : m.find? (fun p => p.1 == q) = none := by
    rw [List.find?_eq_none]
    intro kv hkv hbeq
    exact h kv hkv (by rw [eq_of_beq hbeq])
  simp [tableGet, hnone]

/-- C10: the boundary marker in the input is invisible to the context
rules: a 2-character context key with a literal `$` neighbor degenerates
to the single remaining character (exactly as at a word boundary), and a
window whose current character is `$` can never match a genuine
2-character context key — its replacement comes from the letter mapping
or identity alone. -/
theorem dollar_invisible_to_context (schema : Schema) (c p n : Char) :
    schema.get_pref [DUMMY_SYMBOL, c] = schema.get_pref [c] ∧
    schema.get_next [c, DUMMY_SYMBOL] = schema.get_next [c] ∧
    ((∀ kv ∈ schema.prev_mapping.getD [], kv.1.length = 2) →
     (∀ kv ∈ schema.next_mapping.getD [], kv.1.length = 2) →
      parse_letter [p, DUMMY_SYMBOL, n] schema =
        match schema.get_letter [DUMMY_SYMBOL] with
        | some m => m
        | none => [DUMMY_SYMBOL]) := by
  have hstrip1 : stripDummy [DUMMY_SYMBOL, c] = stripDummy [c] := by
    simp [stripDummy]
  have hstrip2 : stripDummy [c, DUMMY_SYMBOL] = stripDummy [c] := by
    by_cases hc : c = DUMMY_SYMBOL <;> simp [stripDummy, hc]
  refine ⟨?_, ?_, ?_⟩
  · unfold Schema.get_pref
    rw [hstrip1]
  · unfold Schema.get_next
    rw [hstrip2]
  · intro h1 h2
    have hpn : schema.get_pref [p, DUMMY_SYMBOL] = none := by
      unfold Schema.get_pref
      cases hpm : schema.prev_mapping with
      | none => rfl
      | some m =>
        apply tableGet_eq_none_of_length_ne
        intro kv hkv
        have hk2 : kv.1.length = 2 := h1 kv (by rw [hpm]; exact hkv)
        have hq : (toLowerStr (stripDummy [p, DUMMY_SYMBOL])).length ≤ 1 := by
          by_cases hp : p = DUMMY_SYMBOL <;>
            simp [toLowerStr, stripDummy, hp]
        omega
    have hnn : schema.get_next [DUMMY_SYMBOL, n] = none := by
      unfold Schema.get_next
      cases hnm : schema.next_mapping with
      | none => rfl
      | some m =>
        apply tableGet_eq_none_of_length_ne
        intro kv hkv
        have hk2 : kv.1.length = 2 := h2 kv (by rw [hnm]; exact hkv)
        have hq : (toLowerStr (stripDummy [DUMMY_SYMBOL, n])).length ≤ 1 := by
          by_cases hn : n = DUMMY_SYMBOL <;>
            simp [toLowerStr, stripDummy, hn]
        omega
    have hcase : (([DUMMY_SYMBOL] : Str).any (fun letter => letter.isUpper)) = false := by
      decide
    cases hgl : schema.get_letter [DUMMY_SYMBOL] with
    | some m =>
      unfold parse_letter
      simp [hpn, hnn, hgl, propagate_case_from_source, hcase]
    | none =>
      unfold parse_letter
      simp [hpn, hnn, hgl, propagate_case_from_source, hcase]

/-- C10 witness: on `dollarSchema`, whose context tables hold only
genuine 2-character keys, the window `(a, $, b)` is replaced via the
letter mapping of `$` alone. -/
theorem dollar_invisible_to_context_witness :
    parse_letter ['a', '$', 'b'] dollarSchema = ['Z'] := by
  have h := (dollar_invisible_to_context dollarSchema 'x' 'a' 'b').2.2
    (by decide) (by decide)
  rw [(by decide : dollarSchema.get_letter [DUMMY_SYMBOL] = some ['Z'])] at h
  exact h

/-- C5 witness: a 2-character source tail with one uppercase character
uppercases the whole replacement; an all-lowercase tail leaves it
unchanged. -/
theorem propagate_case_whole_witness :
    propagate_case_from_source ['x', 'y'] ['a', 'B'] false = ['X', 'Y'] ∧
    propagate_case_from_source ['x', 'y'] ['a', 'b'] false = ['x', 'y'] := by
  constructor
  · have h := (propagate_case_whole ['x', 'y'] ['a', 'B']).1 (by decide)
    simpa using h
  · exact (propagate_case_whole ['x', 'y'] ['a', 'b']).2 (by decide)
